import Mathlib

/-!
# go-perun: addresses, wire codec, channel sync message and test dialer

A shallow embedding of the parts of go-perun that the properties below are
about, followed by the proofs.

* `backend/ethereum/wallet/address.go`: `Address` with `Bytes`, `Encode`,
  `Decode`, `Equals`, `Cmp`.
* `client/syncmsgs.go`: `msgChannelSync` with `Encode`, `Decode`, `ID`,
  `Type` and the decoder registered in `init`.
* `peer/test/dialer.go`: `Dialer` with `Dial` and `Close`.

Go values are modelled functionally: a method with a pointer receiver takes
the receiver and returns its new value, an `io.Reader` or `io.Writer`
argument is passed in and its state after the call is returned, and a Go
`error` is an `Option Error` (`none` is `nil`).
-/

namespace Perun

/-! ## Bytes, errors, readers and writers -/

/-- A byte: a number below 256. -/
abbrev Byte := Fin 256

/-- The error values that the embedded code creates or passes on. -/
inductive Error where
  /-- The value `io.EOF`. -/
  | EOF
  /-- The value `io.ErrUnexpectedEOF`. -/
  | ErrUnexpectedEOF
  /-- The value `io.ErrShortBuffer`. -/
  | ErrShortBuffer
  /-- The value `io.ErrShortWrite`. -/
  | ErrShortWrite
  /-- The result of `errors.Wrap(cause, "error decoding address")`. -/
  | decodingAddress (cause : Error)
  /-- The value `errors.New("dialer closed")`. -/
  | dialerClosed
  /-- The value `errors.New("manually aborted")`. -/
  | manuallyAborted
  /-- The value `errors.New("invalid peer address")`. -/
  | invalidPeerAddress
  /-- The value `errors.Errorf("peer with address %v not found", address)`. -/
  | peerNotFound
  /-- The value `errors.New("dialer was already closed")`. -/
  | dialerAlreadyClosed
  /-- Any other error, identified by a number (errors of collaborators). -/
  | other (code : Nat)
  deriving DecidableEq, Repr

/-- The function `errors.Wrap(err, "error decoding address")` of
github.com/pkg/errors: `nil` stays `nil`, any other error is wrapped. -/
def errorsWrap (err : Option Error) : Option Error :=
  match err with
  | none => none
  | some e => some (Error.decodingAddress e)

/-- An `io.Reader` over a finite input: the chunks that successive `Read`
calls hand out, in order. Once the chunks are used up `Read` reports
`io.EOF`. A `bytes.Reader` over `b` is the reader with the single chunk `b`;
a pipe delivers one chunk per write. An empty chunk is a `Read` that returns
`0, nil`. -/
structure Reader where
  chunks : List (List Byte)
  deriving DecidableEq, Repr

/-- All the bytes a reader supplies before end of input. -/
def Reader.bytes (r : Reader) : List Byte := r.chunks.flatten

/-- The call `r.Read(p)` with `len(p) = len`: the bytes stored at the start
of `p`, the error, and the reader afterwards. A chunk that does not fit in
`p` is handed out in part and the remainder stays in the reader. -/
def Reader.Read (r : Reader) (len : Nat) : List Byte × Option Error × Reader :=
  match r.chunks with
  | [] => ([], some Error.EOF, r)
  | c :: rest =>
    if c.length ≤ len then (c, none, ⟨rest⟩)
    else (c.take len, none, ⟨c.drop len :: rest⟩)

/-- The buffer `buf` after `data` was stored into `buf[n:]`. -/
def writeAt (buf : List Byte) (n : Nat) (data : List Byte) : List Byte :=
  buf.take n ++ data ++ buf.drop (n + data.length)

/-- What `io.ReadAtLeast` leaves behind: the count `n`, the error, the
buffer contents and the reader. -/
structure ReadResult where
  n : Nat
  err : Option Error
  buf : List Byte
  rest : Reader
  deriving DecidableEq, Repr

/-- The loop of `io.ReadAtLeast`,

    for n < min && err == nil { nn, err = r.Read(buf[n:]); n += nn }

run on the chunks of the reader, with `min ≤ len(buf)` (which `ReadAtLeast`
checks before the loop). The `Read` is unfolded in place so that the
recursion is on the list of chunks: a chunk that fits is stored and the loop
goes on with the next chunk; a chunk that does not fit fills the buffer, so
`n = len(buf) ≥ min` and the loop ends. `ReadAtLeast.loop_step` relates this
to `Reader.Read`. -/
def ReadAtLeast.loop (min : Nat) : List (List Byte) → List Byte → Nat → ReadResult
  | [], buf, n =>
    if n < min then ⟨n, some Error.EOF, buf, ⟨[]⟩⟩ else ⟨n, none, buf, ⟨[]⟩⟩
  | c :: rest, buf, n =>
    if n < min then
      if c.length ≤ buf.length - n then
        ReadAtLeast.loop min rest (writeAt buf n c) (n + c.length)
      else
        ⟨buf.length, none, writeAt buf n (c.take (buf.length - n)),
          ⟨c.drop (buf.length - n) :: rest⟩⟩
    else ⟨n, none, buf, ⟨c :: rest⟩⟩

/-- The function `io.ReadAtLeast(r, buf, min)` of the Go standard library:

    if len(buf) < min { return 0, ErrShortBuffer }
    for n < min && err == nil { ... }
    if n >= min { err = nil } else if n > 0 && err == EOF { err = ErrUnexpectedEOF }
-/
def ReadAtLeast (r : Reader) (buf : List Byte) (min : Nat) : ReadResult :=
  if buf.length < min then ⟨0, some Error.ErrShortBuffer, buf, r⟩
  else
    let res := ReadAtLeast.loop min r.chunks buf 0
    if res.n ≥ min then { res with err := none }
    else if res.n > 0 ∧ res.err = some Error.EOF then
      { res with err := some Error.ErrUnexpectedEOF }
    else res

/-- The function `io.ReadFull(r, buf)`: `ReadAtLeast(r, buf, len(buf))`. -/
def ReadFull (r : Reader) (buf : List Byte) : ReadResult :=
  ReadAtLeast r buf buf.length

/-- An `io.Writer`: the bytes written so far and the room that is left
(`none`: unbounded, as a `bytes.Buffer`; `some k`: the writer takes `k`
more bytes and fails with a short write after that). -/
structure Writer where
  written : List Byte
  room : Option Nat
  deriving DecidableEq, Repr

/-- The call `w.Write(p)`: the count, the error and the writer afterwards. -/
def Writer.Write (w : Writer) (p : List Byte) : Nat × Option Error × Writer :=
  match w.room with
  | none => (p.length, none, ⟨w.written ++ p, none⟩)
  | some k =>
    if p.length ≤ k then (p.length, none, ⟨w.written ++ p, some (k - p.length)⟩)
    else (k, some Error.ErrShortWrite, ⟨w.written ++ p.take k, some 0⟩)

/-! ## backend/ethereum/wallet/address.go -/

/-- The constant `common.AddressLength` of go-ethereum. -/
def AddressLength : Nat := 20

/-- The type `Address`, a `common.Address`, which is `[AddressLength]byte`. -/
structure Address where
  bytes : List Byte
  len : bytes.length = AddressLength
  deriving DecidableEq, Repr

/-- The method `Address.Bytes`: the address as a byte slice, `a[:]`. -/
def Address.Bytes (a : Address) : List Byte := a.bytes

/-- The slice that `common.Address.SetBytes` copies: `b` cropped from the
left to `AddressLength` bytes. -/
def cropLeft (b : List Byte) : List Byte :=
  if b.length > AddressLength then b.drop (b.length - AddressLength) else b

/-- The method `common.Address.SetBytes` of go-ethereum:

    if len(b) > len(a) { b = b[len(b)-AddressLength:] }
    copy(a[AddressLength-len(b):], b)
-/
def Address.SetBytes (a : Address) (b : List Byte) : Address :=
  ⟨a.bytes.take (AddressLength - (cropLeft b).length) ++ cropLeft b, by
    have h := a.len
    simp only [cropLeft, AddressLength] at *
    split <;> simp [List.length_take, List.length_drop] <;> omega⟩

/-- The method `Address.Encode`: `_, err := w.Write(a.Bytes()); return err`. -/
def Address.Encode (a : Address) (w : Writer) : Option Error × Writer :=
  let res := w.Write a.Bytes
  (res.2.1, res.2.2)

/-- The method `Address.Decode`:

    buf := make([]byte, common.AddressLength)
    _, err := io.ReadFull(r, buf)
    (*common.Address)(a).SetBytes(buf)
    return errors.Wrap(err, "error decoding address")

The result is the receiver afterwards, the error and the reader afterwards. -/
def Address.Decode (a : Address) (r : Reader) : Address × Option Error × Reader :=
  let buf := List.replicate AddressLength (0 : Byte)
  let res := ReadFull r buf
  (a.SetBytes res.buf, errorsWrap res.err, res.rest)

/-- The function `bytes.Equal(a, b)` of the Go standard library:
`string(a) == string(b)`. -/
def bytesEqual (a b : List Byte) : Bool := decide (a = b)

/-- The function `bytes.Compare(a, b)` of the Go standard library: the
first differing byte decides, and if one slice is a prefix of the other the
shorter one is smaller. -/
def bytesCompare : List Byte → List Byte → Int
  | [], [] => 0
  | [], _ :: _ => -1
  | _ :: _, [] => 1
  | x :: xs, y :: ys =>
    if x < y then -1 else if y < x then 1 else bytesCompare xs ys

/-- The method `Address.Equals`: `bytes.Equal(a.Bytes(), addr.(*Address).Bytes())`. -/
def Address.Equals (a addr : Address) : Bool := bytesEqual a.Bytes addr.Bytes

/-- The method `Address.Cmp`: `bytes.Compare(a.Bytes(), addr.(*Address).Bytes())`. -/
def Address.Cmp (a addr : Address) : Int := bytesCompare a.Bytes addr.Bytes

/-- The address of `sampleAddr` in `wallet_test.go`,
`1234560000000000000000000000000000000000`. -/
def sampleAddress : Address :=
  ⟨[0x12, 0x34, 0x56] ++ List.replicate 17 0, by decide⟩

/-- The zero value of `Address`: twenty zero bytes. -/
def zeroAddress : Address := ⟨List.replicate AddressLength 0, by decide⟩

/-- An empty `bytes.Buffer` used as a writer. -/
def emptyBuffer : Writer := ⟨[], none⟩

/-- The reader `bytes.NewReader(b)`. -/
def bytesNewReader (b : List Byte) : Reader := ⟨[b]⟩

/-! ## pkg/io: serializers, `Encode` and `Decode` -/

/-- The interface `perunio.Serializer`: a type with an `Encode` method that
writes a value and a `Decode` method that reads into a receiver. The channel
types `Phase` and `Transaction` come with one each. -/
structure Serializer (α : Type) where
  Encode : α → Writer → Option Error × Writer
  Decode : α → Reader → α × Option Error × Reader

/-- A serializer round-trips: whenever `Encode` of a value succeeds it has
appended some bytes to the writer, and `Decode` on any reader that holds
those bytes (whatever follows them) succeeds, yields the value and takes
exactly those bytes from the reader. -/
def Serializer.RoundTrips {α : Type} (s : Serializer α) : Prop :=
  ∀ (v : α) (w : Writer), (s.Encode v w).1 = none →
    ∃ bs : List Byte, (s.Encode v w).2.written = w.written ++ bs ∧
      ∀ (recv : α) (r : Reader) (tail : List Byte), r.bytes = bs ++ tail →
        (s.Decode recv r).1 = v ∧ (s.Decode recv r).2.1 = none ∧
        (s.Decode recv r).2.2.bytes = tail

/-- Modelled from the spec: `perunio.Encode(w, values...)` of package
pkg/io, whose code is not embedded here. It "writes each value in
order", "composite types recursively via their own Encode method"; a value
is given here by its `Encode` method. An error of a value ends the call and
is the error returned. -/
def perunioEncode (w : Writer) : List (Writer → Option Error × Writer) → Option Error × Writer
  | [] => (none, w)
  | v :: vs =>
    match v w with
    | (some e, w1) => (some e, w1)
    | (none, w1) => perunioEncode w1 vs

/-- Modelled from the spec: `perunio.Decode(r, destinations...)` of package
pkg/io, whose code is not embedded here: "the exact inverse" of
`Encode`, it reads the destinations in order. A destination is a pointer
into a value of type `σ`; it is given here by the function that decodes into
that place of the value. An error of a destination ends the call and is the
error returned. -/
def perunioDecode {σ : Type} (r : Reader) :
    List (σ → Reader → σ × Option Error × Reader) → σ → σ × Option Error × Reader
  | [], s => (s, none, r)
  | d :: ds, s =>
    match d s r with
    | (s1, some e, r1) => (s1, some e, r1)
    | (s1, none, r1) => perunioDecode r1 ds s1

/-! ## client/syncmsgs.go -/

/-- The type `wire.Type`, the tag of a wire message (a `uint8`). -/
abbrev WireType := Nat

/-- The struct `msgChannelSync`. The types `channel.Phase` (`P`) and
`channel.Transaction` (`T`) are declared in package channel, whose code is
not embedded here, and are parameters. -/
structure msgChannelSync (P T : Type) where
  Phase : P
  CurrentTX : T

/-- The method `msgChannelSync.Encode`:
`return perunio.Encode(w, m.Phase, m.CurrentTX)`. -/
def msgChannelSync.Encode {P T : Type} (sp : Serializer P) (st : Serializer T)
    (m : msgChannelSync P T) (w : Writer) : Option Error × Writer :=
  perunioEncode w [sp.Encode m.Phase, st.Encode m.CurrentTX]

/-- The destination `&m.Phase`. -/
def msgChannelSync.intoPhase {P T : Type} (sp : Serializer P)
    (m : msgChannelSync P T) (r : Reader) : msgChannelSync P T × Option Error × Reader :=
  let res := sp.Decode m.Phase r
  ({ m with Phase := res.1 }, res.2.1, res.2.2)

/-- The destination `&m.CurrentTX`. -/
def msgChannelSync.intoCurrentTX {P T : Type} (st : Serializer T)
    (m : msgChannelSync P T) (r : Reader) : msgChannelSync P T × Option Error × Reader :=
  let res := st.Decode m.CurrentTX r
  ({ m with CurrentTX := res.1 }, res.2.1, res.2.2)

/-- The method `msgChannelSync.Decode`:
`return perunio.Decode(r, &m.Phase, &m.CurrentTX)`. -/
def msgChannelSync.Decode {P T : Type} (sp : Serializer P) (st : Serializer T)
    (m : msgChannelSync P T) (r : Reader) : msgChannelSync P T × Option Error × Reader :=
  perunioDecode r [msgChannelSync.intoPhase sp, msgChannelSync.intoCurrentTX st] m

/-- The method `msgChannelSync.ID`: `return m.CurrentTX.ID`. The field `ID`
of a transaction is the parameter `txID`. -/
def msgChannelSync.ID {P T I : Type} (txID : T → I) (m : msgChannelSync P T) : I :=
  txID m.CurrentTX

/-- The method `msgChannelSync.Type`: `return wire.ChannelSync`. The
constant `wire.ChannelSync` is the parameter `ChannelSync`. -/
def msgChannelSync.Type {P T : Type} (ChannelSync : WireType) (_m : msgChannelSync P T) :
    WireType :=
  ChannelSync

/-- A value of the interface `wire.Msg`: a `*msgChannelSync`, or a message
of another package, of which only the tag is kept. -/
inductive Msg (P T : Type) where
  | channelSync (m : msgChannelSync P T)
  | foreign (tag : WireType)

/-- The call `m.Type()` on a `wire.Msg`, dispatched on the dynamic type. -/
def Msg.Type {P T : Type} (ChannelSync : WireType) : Msg P T → WireType
  | Msg.channelSync m => m.Type ChannelSync
  | Msg.foreign tag => tag

/-- A decoder as `wire.RegisterDecoder` takes it:
`func(io.Reader) (wire.Msg, error)`. -/
abbrev MsgDecoder (P T : Type) := Reader → Msg P T × Option Error × Reader

/-- Modelled from the spec: the message-type registry of package wire,
whose code is not embedded here: it "maps a finite set of small integer tags
to ... decoder factories". -/
structure Registry (P T : Type) where
  entries : List (WireType × MsgDecoder P T)

/-- The decoder a registry holds for a tag. -/
def Registry.lookup {P T : Type} (reg : Registry P T) (tag : WireType) :
    Option (MsgDecoder P T) :=
  (reg.entries.find? (fun e => e.1 == tag)).map (fun e => e.2)

/-- Modelled from the spec: `wire.RegisterDecoder(tag, factory)` of package
wire, whose code is not embedded here: it "fails fatally if `tag` is
already registered", which is `none` here, and otherwise adds the decoder
under the tag. -/
def RegisterDecoder {P T : Type} (reg : Registry P T) (tag : WireType)
    (decoder : MsgDecoder P T) : Option (Registry P T) :=
  match reg.lookup tag with
  | some _ => none
  | none => some ⟨(tag, decoder) :: reg.entries⟩

/-- The decoder that `init` registers:

    func(r io.Reader) (wire.Msg, error) {
        var m msgChannelSync
        return &m, m.Decode(r)
    }

The zero value of `msgChannelSync` is the parameter `zero`. -/
def channelSyncDecoder {P T : Type} (sp : Serializer P) (st : Serializer T)
    (zero : msgChannelSync P T) : MsgDecoder P T :=
  fun r =>
    let res := zero.Decode sp st r
    (Msg.channelSync res.1, res.2.1, res.2.2)

/-- The function `init` of package client:
`wire.RegisterDecoder(wire.ChannelSync, func ...)`, run on the registry as
it is when the package is initialised. -/
def init {P T : Type} (ChannelSync : WireType) (sp : Serializer P) (st : Serializer T)
    (zero : msgChannelSync P T) (reg : Registry P T) : Option (Registry P T) :=
  RegisterDecoder reg ChannelSync (channelSyncDecoder sp st zero)

/-- The serializer of `Address`, from its methods `Encode` and `Decode`. -/
def addressSerializer : Serializer Address := ⟨Address.Encode, Address.Decode⟩

/-! ## peer/test/dialer.go -/

/-- A connection `peer.NewIoConn(end)` over one end of a pipe; the ends of
the pipes are numbered in the order in which they are created. -/
structure Conn where
  id : Nat
  deriving DecidableEq, Repr

/-- The state outside the dialer that `Dial` acts on, with addresses `A` and
listeners `L`: the addresses looked up in the hub so far, the number of
pipes created so far, the connections put into listeners and the
connections that were closed. -/
structure World (A L : Type) where
  lookups : List A
  pipes : Nat
  delivered : List (L × Conn)
  closedConns : List Conn

/-- The struct `Dialer`, with addresses `A`, listeners `L` and identities
`I`. The hub is given by what `ConnHub.find` returns for each address; the
field `closed` is the value of the atomic flag. -/
structure Dialer (A L I : Type) where
  hub : A → Option L
  identity : I
  closed : Bool

/-- What `Dial` calls that is declared outside peer/test/dialer.go, as
parameters: the method `Equals` of `peer.Address`, and `peer.ExchangeAddrs`,
which runs on a connection, may act on the state outside the dialer (it may
close the connection), and returns the address of the peer or an error. -/
structure DialEnv (A L I : Type) where
  Equals : A → A → Bool
  ExchangeAddrs : I → Conn → World A L → Except Error A × World A L

/-- The call `d.hub.find(address)`: the lookup is recorded. -/
def Dialer.find {A L I : Type} (d : Dialer A L I) (address : A) (w : World A L) :
    Option L × World A L :=
  (d.hub address, { w with lookups := w.lookups ++ [address] })

/-- The call `net.Pipe()` followed by `peer.NewIoConn` on each end: the
local connection, the remote connection, and the state with one more pipe. -/
def netPipe {A L : Type} (w : World A L) : Conn × Conn × World A L :=
  (⟨2 * w.pipes⟩, ⟨2 * w.pipes + 1⟩, { w with pipes := w.pipes + 1 })

/-- The call `l.Put(conn)`: the connection is delivered to the listener. -/
def Put {A L : Type} (l : L) (conn : Conn) (w : World A L) : World A L :=
  { w with delivered := w.delivered ++ [(l, conn)] }

/-- The method `Dialer.Dial`, with `ctxDone` telling whether `ctx.Done()` is
closed when `Dial` looks at it:

    if d.closed.IsSet() { return nil, errors.New("dialer closed") }
    select {
    case <-ctx.Done(): return nil, errors.New("manually aborted")
    default:
    }
    if l, ok := d.hub.find(address); ok {
        local, remote := net.Pipe()
        l.Put(peer.NewIoConn(remote))
        conn := peer.NewIoConn(local)
        if addr, err := peer.ExchangeAddrs(d.identity, conn); err != nil {
            return nil, err
        } else if !addr.Equals(address) {
            return nil, errors.New("invalid peer address")
        }
        return conn, nil
    }
    return nil, errors.Errorf("peer with address %v not found", address)

The result is the pair that `Dial` returns and the state afterwards. -/
def Dialer.Dial {A L I : Type} (env : DialEnv A L I) (d : Dialer A L I) (ctxDone : Bool)
    (address : A) (w : World A L) : (Option Conn × Option Error) × World A L :=
  if d.closed then ((none, some Error.dialerClosed), w)
  else if ctxDone then ((none, some Error.manuallyAborted), w)
  else
    match d.find address w with
    | (some l, w1) =>
      let p := netPipe w1
      let w3 := Put l p.2.1 p.2.2
      let conn := p.1
      match env.ExchangeAddrs d.identity conn w3 with
      | (Except.error err, w4) => ((none, some err), w4)
      | (Except.ok addr, w4) =>
        if !env.Equals addr address then ((none, some Error.invalidPeerAddress), w4)
        else ((some conn, none), w4)
    | (none, w1) => ((none, some Error.peerNotFound), w1)

/-- The method `Dialer.Close`:

    if !d.closed.TrySet() { return errors.New("dialer was already closed") }
    return nil

`TrySet` sets the flag and tells whether it was unset before. -/
def Dialer.Close {A L I : Type} (d : Dialer A L I) : Option Error × Dialer A L I :=
  if d.closed then (some Error.dialerAlreadyClosed, d)
  else (none, { d with closed := true })

/-- The connection that `Dial` creates for itself when it finds a listener,
and the state in which it starts the address exchange: after the lookup,
the pipe and the delivery of the remote end to the listener `l`. -/
def Dialer.beforeExchange {A L I : Type} (d : Dialer A L I) (address : A) (l : L)
    (w : World A L) : Conn × World A L :=
  let p := netPipe (d.find address w).2
  (p.1, Put l p.2.1 p.2.2)

/-- An example: a hub with a listener for every address (numbers), and an
address exchange in which the peer always claims address 2 and which leaves
the connection as it is. -/
def claimsTwo : DialEnv Nat Unit Nat :=
  ⟨fun a b => a == b, fun _ _ w => (Except.ok 2, w)⟩

/-- An example: an open dialer whose hub has a listener for every address. -/
def openDialer : Dialer Nat Unit Nat := ⟨fun _ => some (), 0, false⟩

/-- An example: the state in which nothing has happened yet. -/
def freshWorld : World Nat Unit := ⟨[], 0, [], []⟩

/-- A call of one of the two methods of a `Dialer`. -/
inductive DialerCall (A : Type) where
  | Dial (ctxDone : Bool) (address : A)
  | Close

/-- The dialer and the state outside it after one call: `Dial` acts on the
state outside and does not write to the dialer; `Close` writes the flag
`closed` and nothing else. -/
def Dialer.call {A L I : Type} (env : DialEnv A L I) (d : Dialer A L I) (w : World A L) :
    DialerCall A → Dialer A L I × World A L
  | DialerCall.Dial ctxDone address => (d, (d.Dial env ctxDone address w).2)
  | DialerCall.Close => (d.Close.2, w)

/-- The dialer and the state outside it after a sequence of calls, one after
the other. -/
def Dialer.calls {A L I : Type} (env : DialEnv A L I) :
    List (DialerCall A) → Dialer A L I → World A L → Dialer A L I × World A L
  | [], d, w => (d, w)
  | c :: cs, d, w => Dialer.calls env cs (d.call env w c).1 (d.call env w c).2

/-- The calls `Dial(ctx, address)` for a list of contexts and addresses. -/
def dialCalls {A : Type} (dials : List (Bool × A)) : List (DialerCall A) :=
  dials.map (fun p => DialerCall.Dial p.1 p.2)

/-- The reader `bytes.NewReader([]byte(invalidAddr))` of `TestBackend`: the
six bytes of the string "123456". -/
def invalidAddrReader : Reader := bytesNewReader [0x31, 0x32, 0x33, 0x34, 0x35, 0x36]

/-! ## wire: `Encode` and `Decode` of primitive values

Package wire's `Encode` and `Decode` are exercised by `wire/wire_test.go`
but their code is not embedded here; they are modelled from the spec. -/

/-- The byte order of the fixed-width integers. The spec fixes "a defined
byte order" without naming it, so both are modelled. -/
inductive ByteOrder where
  | littleEndian
  | bigEndian
  deriving DecidableEq, Repr

/-- The primitive types of the wire codec (the types of `TestEncodeDecode`). -/
inductive Kind where
  | bool | uint16 | uint32 | uint64 | int16 | int32 | int64 | time
  deriving DecidableEq, Repr

/-- A value of a primitive type. Integers are unbounded numbers here and
`Value.inRange` says that they fit their type; a time is its number of
nanoseconds since the Unix epoch, an `int64` (`time.Unix(0, nanos)`). -/
inductive Value where
  | bool (b : Bool)
  | uint16 (n : Nat)
  | uint32 (n : Nat)
  | uint64 (n : Nat)
  | int16 (i : Int)
  | int32 (i : Int)
  | int64 (i : Int)
  | time (nanos : Int)
  deriving DecidableEq, Repr

/-- The type of a value. -/
def Value.kind : Value → Kind
  | Value.bool _ => Kind.bool
  | Value.uint16 _ => Kind.uint16
  | Value.uint32 _ => Kind.uint32
  | Value.uint64 _ => Kind.uint64
  | Value.int16 _ => Kind.int16
  | Value.int32 _ => Kind.int32
  | Value.int64 _ => Kind.int64
  | Value.time _ => Kind.time

/-- The number of bytes of the fixed layout of a type. -/
def Kind.width : Kind → Nat
  | Kind.bool => 1
  | Kind.uint16 => 2
  | Kind.uint32 => 4
  | Kind.uint64 => 8
  | Kind.int16 => 2
  | Kind.int32 => 4
  | Kind.int64 => 8
  | Kind.time => 8

/-- An unsigned number fits `k` bytes. -/
def fitsUnsigned (k : Nat) (n : Nat) : Bool := decide (n < 256 ^ k)

/-- A signed number fits `k` bytes in two's complement. -/
def fitsSigned (k : Nat) (i : Int) : Bool :=
  decide (-(256 ^ k : Int) ≤ 2 * i ∧ 2 * i < (256 ^ k : Int))

/-- The value is a value of its Go type: the number fits the width. -/
def Value.inRange : Value → Bool
  | Value.bool _ => true
  | Value.uint16 n => fitsUnsigned 2 n
  | Value.uint32 n => fitsUnsigned 4 n
  | Value.uint64 n => fitsUnsigned 8 n
  | Value.int16 i => fitsSigned 2 i
  | Value.int32 i => fitsSigned 4 i
  | Value.int64 i => fitsSigned 8 i
  | Value.time t => fitsSigned 8 t

/-- The `k` low bytes of `n`, lowest first. -/
def toBytesLE : Nat → Nat → List Byte
  | 0, _ => []
  | k + 1, n => Fin.ofNat (n % 256) :: toBytesLE k (n / 256)

/-- The number whose bytes, lowest first, are `bs`. -/
def ofBytesLE : List Byte → Nat
  | [] => 0
  | b :: bs => b.val + 256 * ofBytesLE bs

/-- An unsigned integer as `k` bytes in the given byte order. -/
def putUint (order : ByteOrder) (k : Nat) (n : Nat) : List Byte :=
  match order with
  | ByteOrder.littleEndian => toBytesLE k n
  | ByteOrder.bigEndian => (toBytesLE k n).reverse

/-- The unsigned integer that bytes in the given byte order stand for. -/
def getUint (order : ByteOrder) (bs : List Byte) : Nat :=
  match order with
  | ByteOrder.littleEndian => ofBytesLE bs
  | ByteOrder.bigEndian => ofBytesLE bs.reverse

/-- The two's complement of a signed integer on `k` bytes: `i mod 256^k`. -/
def toUnsigned (k : Nat) (i : Int) : Nat := (i % (256 ^ k : Int)).toNat

/-- The signed integer that an unsigned `n` below `256^k` stands for in
two's complement. -/
def toSigned (k : Nat) (n : Nat) : Int :=
  if 2 * n < 256 ^ k then (n : Int) else (n : Int) - (256 ^ k : Int)

/-- Modelled from the spec: the "fixed per-type binary layout" of package
wire's `Encode`, whose code is not embedded here: "fixed-width integers
in a defined byte order", "booleans as one byte"; a time is laid out as its
`int64` count of nanoseconds. -/
def encodeValue (order : ByteOrder) : Value → List Byte
  | Value.bool b => [if b then 1 else 0]
  | Value.uint16 n => putUint order 2 n
  | Value.uint32 n => putUint order 4 n
  | Value.uint64 n => putUint order 8 n
  | Value.int16 i => putUint order 2 (toUnsigned 2 i)
  | Value.int32 i => putUint order 4 (toUnsigned 4 i)
  | Value.int64 i => putUint order 8 (toUnsigned 8 i)
  | Value.time t => putUint order 8 (toUnsigned 8 t)

/-- Modelled from the spec: the inverse of the layout of `encodeValue`, for
a destination of the given type and the bytes read for it. -/
def decodeValue (order : ByteOrder) : Kind → List Byte → Value
  | Kind.bool, bs => Value.bool (decide (bs.headD 0 ≠ 0))
  | Kind.uint16, bs => Value.uint16 (getUint order bs)
  | Kind.uint32, bs => Value.uint32 (getUint order bs)
  | Kind.uint64, bs => Value.uint64 (getUint order bs)
  | Kind.int16, bs => Value.int16 (toSigned 2 (getUint order bs))
  | Kind.int32, bs => Value.int32 (toSigned 4 (getUint order bs))
  | Kind.int64, bs => Value.int64 (toSigned 8 (getUint order bs))
  | Kind.time, bs => Value.time (toSigned 8 (getUint order bs))

/-- Modelled from the spec: `Encode(w, values...)` of package wire, whose
code is not embedded here: it "writes each value in order using a fixed
per-type binary layout". A failed write ends the call and is the error
returned. -/
def wireEncode (order : ByteOrder) (w : Writer) : List Value → Option Error × Writer
  | [] => (none, w)
  | v :: vs =>
    match w.Write (encodeValue order v) with
    | (_, some e, w1) => (some e, w1)
    | (_, none, w1) => wireEncode order w1 vs

/-- Modelled from the spec: `Decode(r, destinations...)` of package wire,
whose code is not embedded here: "the exact inverse" of `Encode`. The
destinations are given by their types; the result holds the values stored
into the destinations, in order, up to the first that could not be read,
the error and the reader afterwards. -/
def wireDecode (order : ByteOrder) (r : Reader) : List Kind → List Value × Option Error × Reader
  | [] => ([], none, r)
  | k :: ks =>
    let res := ReadFull r (List.replicate k.width (0 : Byte))
    match res.err with
    | some e => ([], some e, res.rest)
    | none =>
      let tl := wireDecode order res.rest ks
      (decodeValue order k res.buf :: tl.1, tl.2.1, tl.2.2)

/-- The number of bytes of the layouts of a sequence of values. -/
def totalWidth (values : List Value) : Nat :=
  (values.map (fun v => v.kind.width)).sum

/-- The values of `TestEncodeDecode`, with a time of 1573000000000000001
nanoseconds. -/
def testValues : List Value :=
  [Value.bool true, Value.uint16 0x1234, Value.uint32 0x123567,
   Value.uint64 0x1234567890123456, Value.int16 0x1234, Value.int32 0x123567,
   Value.int64 0x1234567890123456, Value.time 1573000000000000001]

/-! ## Proofs: readers -/

theorem writeAt_length (buf : List Byte) (n : Nat) (data : List Byte)
    (h : n + data.length ≤ buf.length) : (writeAt buf n data).length = buf.length := by
  simp [writeAt, List.length_take, List.length_drop]
  omega

theorem writeAt_nil (buf : List Byte) (n : Nat) : writeAt buf n [] = buf := by
  simp [writeAt]

theorem writeAt_writeAt (buf : List Byte) (n : Nat) (c d : List Byte)
    (h : n + c.length ≤ buf.length) :
    writeAt (writeAt buf n c) (n + c.length) d = writeAt buf n (c ++ d) := by
  have h1 : (buf.take n).length = n := by simp [List.length_take]; omega
  simp only [writeAt, List.append_assoc, List.length_append]
  rw [List.take_append_eq_append_take, List.take_append_eq_append_take]
  rw [List.drop_append_eq_append_drop, List.drop_append_eq_append_drop]
  simp only [h1]
  have e1 : n + c.length - n = c.length := by omega
  have e2 : n + c.length - n - c.length = 0 := by omega
  have e3 : n + c.length + d.length - n = c.length + d.length := by omega
  have e4 : n + c.length + d.length - n - c.length = d.length := by omega
  have e5 : n ≤ n + c.length := by omega
  have e6 : n ≤ n + c.length + d.length := by omega
  simp [e1, e2, e3, e4, List.take_of_length_le, List.drop_of_length_le, h1, e5, e6,
    List.drop_drop, Nat.add_assoc, Nat.add_comm d.length]

/-- One turn of the loop of `io.ReadAtLeast` as the source writes it: while
`n < min`, the loop calls `r.Read(buf[n:])`, stores the bytes, adds their
count to `n`, and goes on unless `Read` reported an error. -/
theorem ReadAtLeast.loop_step (min : Nat) (r : Reader) (buf : List Byte) (n : Nat)
    (hmin : min ≤ buf.length) (hn : n < min) :
    ReadAtLeast.loop min r.chunks buf n =
      (match r.Read (buf.length - n) with
       | (data, some e, r') => ⟨n + data.length, some e, writeAt buf n data, r'⟩
       | (data, none, r') =>
         ReadAtLeast.loop min r'.chunks (writeAt buf n data) (n + data.length)) := by
  obtain ⟨cs⟩ := r
  cases cs with
  | nil => simp [ReadAtLeast.loop, Reader.Read, hn, writeAt_nil]
  | cons c rest =>
    by_cases hc : c.length ≤ buf.length - n
    · simp [ReadAtLeast.loop, Reader.Read, hn, hc]
    · have hl : (writeAt buf n (c.take (buf.length - n))).length = buf.length := by
        apply writeAt_length; simp [List.length_take]; omega
      have hk : n + (c.take (buf.length - n)).length = buf.length := by
        simp [List.length_take]; omega
      simp only [ReadAtLeast.loop, Reader.Read, hn, hc, if_true, if_false, hk]
      have : ¬ buf.length < min := by omega
      simp [ReadAtLeast.loop, this]

/-- What the loop of `io.ReadFull` computes, in terms of the bytes the
reader holds: it stores as many of them as fit behind offset `n`, leaves the
others in the reader, and ends with `io.EOF` exactly when the buffer is not
full. -/
theorem ReadAtLeast.loop_spec (cs : List (List Byte)) :
    ∀ (buf : List Byte) (n : Nat), n ≤ buf.length →
      (ReadAtLeast.loop buf.length cs buf n).buf
          = writeAt buf n (cs.flatten.take (buf.length - n)) ∧
      (ReadAtLeast.loop buf.length cs buf n).rest.bytes
          = cs.flatten.drop (buf.length - n) ∧
      (ReadAtLeast.loop buf.length cs buf n).n
          = n + Nat.min cs.flatten.length (buf.length - n) ∧
      (ReadAtLeast.loop buf.length cs buf n).err
          = (if n + cs.flatten.length < buf.length then some Error.EOF else none) := by
  induction cs with
  | nil =>
    intro buf n hn
    by_cases h : n < buf.length
    · simp [ReadAtLeast.loop, h, writeAt_nil, Reader.bytes]
    · simp [ReadAtLeast.loop, h, writeAt_nil, Reader.bytes]
  | cons c rest ih =>
    intro buf n hn
    by_cases h : n < buf.length
    · by_cases hc : c.length ≤ buf.length - n
      · have hl : (writeAt buf n c).length = buf.length := writeAt_length buf n c (by omega)
        have ih1 := ih (writeAt buf n c) (n + c.length) (by rw [hl]; omega)
        rw [hl] at ih1
        have hloop : ReadAtLeast.loop buf.length (c :: rest) buf n
            = ReadAtLeast.loop buf.length rest (writeAt buf n c) (n + c.length) := by
          simp [ReadAtLeast.loop, h, hc]
        rw [hloop]
        obtain ⟨i1, i2, i3, i4⟩ := ih1
        have e1 : buf.length - (n + c.length) = buf.length - n - c.length := by omega
        refine ⟨?_, ?_, ?_, ?_⟩
        · rw [i1, writeAt_writeAt buf n c _ (by omega)]
          congr 1
          rw [List.flatten_cons, List.take_append_eq_append_take, List.take_of_length_le hc, e1]
        · rw [i2, List.flatten_cons, List.drop_append_eq_append_drop,
            List.drop_of_length_le hc, e1]
          simp
        · rw [i3, List.flatten_cons, List.length_append]
          simp only [Nat.min_def]
          split <;> split <;> omega
        · rw [i4, List.flatten_cons, List.length_append]
          have : n + c.length + rest.flatten.length = n + (c.length + rest.flatten.length) := by
            omega
          rw [this]
      · have hc1 : buf.length - n < c.length := by omega
        have hloop : ReadAtLeast.loop buf.length (c :: rest) buf n
            = ⟨buf.length, none, writeAt buf n (c.take (buf.length - n)),
                ⟨c.drop (buf.length - n) :: rest⟩⟩ := by
          simp [ReadAtLeast.loop, h, hc]
        rw [hloop]
        refine ⟨?_, ?_, ?_, ?_⟩
        · simp only [List.flatten_cons]
          rw [List.take_append_eq_append_take]
          have : buf.length - n - c.length = 0 := by omega
          simp [this]
        · simp only [Reader.bytes, List.flatten_cons]
          rw [List.drop_append_eq_append_drop]
          have : buf.length - n - c.length = 0 := by omega
          simp [this]
        · simp only [List.flatten_cons, List.length_append, Nat.min_def]
          split <;> omega
        · simp only [List.flatten_cons, List.length_append]
          have : ¬ n + (c.length + rest.flatten.length) < buf.length := by omega
          rw [if_neg this]
    · have hn1 : buf.length - n = 0 := by omega
      have hloop : ReadAtLeast.loop buf.length (c :: rest) buf n = ⟨n, none, buf, ⟨c :: rest⟩⟩ := by
        simp [ReadAtLeast.loop, h]
      rw [hloop]
      refine ⟨?_, ?_, ?_, ?_⟩
      · simp [hn1, writeAt_nil]
      · simp [hn1, Reader.bytes]
      · simp [hn1]
      · have : ¬ n + (c :: rest).flatten.length < buf.length := by omega
        rw [if_neg this]

/-- What `io.ReadFull` does on a reader over a finite input: the buffer
receives the first `len(buf)` bytes of the input (fewer if the input is
shorter), the reader keeps the others, and the error is `nil` when the
buffer was filled, `io.EOF` when nothing was read and
`io.ErrUnexpectedEOF` otherwise. -/
theorem ReadFull_spec (r : Reader) (buf : List Byte) :
    (ReadFull r buf).buf = writeAt buf 0 (r.bytes.take buf.length) ∧
    (ReadFull r buf).rest.bytes = r.bytes.drop buf.length ∧
    (ReadFull r buf).err =
      (if buf.length ≤ r.bytes.length then none
       else if r.bytes = [] then some Error.EOF else some Error.ErrUnexpectedEOF) := by
  obtain ⟨h1, h2, h3, h4⟩ := ReadAtLeast.loop_spec r.chunks buf 0 (Nat.zero_le _)
  simp only [Nat.sub_zero, Nat.zero_add] at h1 h2 h3 h4
  have hb : r.chunks.flatten = r.bytes := rfl
  rw [hb] at h1 h2 h3 h4
  simp only [ReadFull, ReadAtLeast, Nat.lt_irrefl, if_false]
  by_cases hfull : buf.length ≤ r.bytes.length
  · have hn : (ReadAtLeast.loop buf.length r.chunks buf 0).n ≥ buf.length := by
      rw [h3]; simp only [Nat.min_def]; split <;> omega
    simp [hn, hfull, h1, h2]
  · have hn : ¬ (ReadAtLeast.loop buf.length r.chunks buf 0).n ≥ buf.length := by
      rw [h3]; simp only [Nat.min_def]; split <;> omega
    have he : (ReadAtLeast.loop buf.length r.chunks buf 0).err = some Error.EOF := by
      rw [h4]; simp; omega
    by_cases hnil : r.bytes = []
    · have hz : ¬ (ReadAtLeast.loop buf.length r.chunks buf 0).n > 0 := by
        rw [h3, hnil]; simp
      have hbuf : ¬ buf = [] := by
        intro hb0; simp [hb0, hnil] at hfull
      simp [hn, hz, hfull, hnil, h1, h2, he, hbuf]
    · have hz : (ReadAtLeast.loop buf.length r.chunks buf 0).n > 0 := by
        have : 0 < r.bytes.length := List.length_pos.mpr hnil
        rw [h3]; simp only [Nat.min_def]; split <;> omega
      simp [hn, hz, hfull, hnil, h1, h2, he]

/-! ## Proofs: addresses -/

theorem Address.SetBytes_full (a : Address) (b : List Byte) (h : b.length = AddressLength) :
    (a.SetBytes b).bytes = b := by
  simp [Address.SetBytes, cropLeft, h]

theorem Address.ext_bytes {a b : Address} (h : a.bytes = b.bytes) : a = b := by
  cases a; cases b; simp_all

/-- The receiver after `Decode`, whatever the input: the first 20 bytes of
the input, filled up with zero bytes when the input is shorter. -/
theorem Address.Decode_bytes (a : Address) (r : Reader) :
    (a.Decode r).1.bytes
      = r.bytes.take AddressLength
          ++ List.replicate (AddressLength - r.bytes.length) (0 : Byte) := by
  obtain ⟨h1, _, _⟩ := ReadFull_spec r (List.replicate AddressLength (0 : Byte))
  have hlen : (ReadFull r (List.replicate AddressLength (0 : Byte))).buf.length
      = AddressLength := by
    rw [h1, writeAt_length] <;> simp [List.length_take]
  simp only [Address.Decode]
  rw [Address.SetBytes_full _ _ hlen, h1]
  simp only [writeAt, List.take_zero, List.nil_append, Nat.zero_add, List.length_replicate,
    List.drop_replicate, List.length_take]
  congr 2
  simp only [Nat.min_def]
  split <;> omega

/-- The error of `Decode`: `nil` exactly when the input has 20 bytes or more. -/
theorem Address.Decode_err (a : Address) (r : Reader) :
    (a.Decode r).2.1 =
      (if AddressLength ≤ r.bytes.length then none
       else if r.bytes = [] then some (Error.decodingAddress Error.EOF)
       else some (Error.decodingAddress Error.ErrUnexpectedEOF)) := by
  obtain ⟨_, _, h3⟩ := ReadFull_spec r (List.replicate AddressLength (0 : Byte))
  simp only [Address.Decode, h3, List.length_replicate]
  split
  · rfl
  · split <;> rfl

/-- The reader after `Decode`: the input without its first 20 bytes. -/
theorem Address.Decode_rest (a : Address) (r : Reader) :
    (a.Decode r).2.2.bytes = r.bytes.drop AddressLength := by
  obtain ⟨_, h2, _⟩ := ReadFull_spec r (List.replicate AddressLength (0 : Byte))
  simp only [Address.Decode, h2, List.length_replicate]

/-! ## Proofs: comparing byte slices -/

theorem bytesCompare_self (xs : List Byte) : bytesCompare xs xs = 0 := by
  induction xs with
  | nil => rfl
  | cons x xs ih => simp [bytesCompare, ih]

theorem bytesCompare_range (xs : List Byte) :
    ∀ ys, bytesCompare xs ys = -1 ∨ bytesCompare xs ys = 0 ∨ bytesCompare xs ys = 1 := by
  induction xs with
  | nil => intro ys; cases ys <;> simp [bytesCompare]
  | cons x xs ih =>
    intro ys
    cases ys with
    | nil => simp [bytesCompare]
    | cons y ys =>
      simp only [bytesCompare]
      split
      · simp
      · split
        · simp
        · exact ih ys

theorem bytesCompare_eq_zero_iff (xs : List Byte) :
    ∀ ys, bytesCompare xs ys = 0 ↔ xs = ys := by
  induction xs with
  | nil => intro ys; cases ys <;> simp [bytesCompare]
  | cons x xs ih =>
    intro ys
    cases ys with
    | nil => simp [bytesCompare]
    | cons y ys =>
      simp only [bytesCompare, List.cons.injEq]
      by_cases h1 : x < y
      · simp [h1, ne_of_lt h1]
      · by_cases h2 : y < x
        · simp [h1, h2, (ne_of_lt h2).symm]
        · have : x = y := le_antisymm (not_lt.mp h2) (not_lt.mp h1)
          simp [h1, h2, this, ih ys]

theorem bytesCompare_antisymm (xs : List Byte) :
    ∀ ys, bytesCompare xs ys = - bytesCompare ys xs := by
  induction xs with
  | nil => intro ys; cases ys <;> simp [bytesCompare]
  | cons x xs ih =>
    intro ys
    cases ys with
    | nil => simp [bytesCompare]
    | cons y ys =>
      simp only [bytesCompare]
      by_cases h1 : x < y
      · simp [h1, not_lt_of_lt h1]
      · by_cases h2 : y < x
        · simp [h1, h2]
        · simp [h1, h2, ih ys]

theorem bytesCompare_neg_one_iff (xs ys : List Byte) :
    bytesCompare xs ys = -1 ↔ List.Lex (· < ·) xs ys := by
  constructor
  · induction xs generalizing ys with
    | nil =>
      cases ys with
      | nil => simp [bytesCompare]
      | cons y ys => intro _; exact List.Lex.nil
    | cons x xs ih =>
      cases ys with
      | nil => simp [bytesCompare]
      | cons y ys =>
        simp only [bytesCompare]
        by_cases h1 : x < y
        · intro _; exact List.Lex.rel h1
        · by_cases h2 : y < x
          · simp [h1, h2]
          · have : x = y := le_antisymm (not_lt.mp h2) (not_lt.mp h1)
            subst this
            simp only [h1, if_false]
            intro h
            exact List.Lex.cons (ih ys h)
  · intro h
    induction h with
    | nil => rfl
    | cons _ ih => simp [bytesCompare, ih]
    | rel h => simp [bytesCompare, h]

theorem bytesCompare_trans (xs : List Byte) :
    ∀ ys zs, bytesCompare xs ys ≤ 0 → bytesCompare ys zs ≤ 0 → bytesCompare xs zs ≤ 0 := by
  induction xs with
  | nil => intro ys zs _ _; cases zs <;> simp [bytesCompare]
  | cons x xs ih =>
    intro ys zs h1 h2
    cases ys with
    | nil => simp [bytesCompare] at h1
    | cons y ys =>
      cases zs with
      | nil => simp [bytesCompare] at h2
      | cons z zs =>
        simp only [bytesCompare] at h1 h2 ⊢
        by_cases hxy : x < y
        · by_cases hyz : y < z
          · simp [lt_trans hxy hyz]
          · by_cases hzy : z < y
            · simp [hyz, hzy] at h2
            · have : y = z := le_antisymm (not_lt.mp hzy) (not_lt.mp hyz)
              subst this
              simp [hxy]
        · by_cases hyx : y < x
          · simp [hxy, hyx] at h1
          · have : x = y := le_antisymm (not_lt.mp hyx) (not_lt.mp hxy)
            subst this
            simp only [hxy, if_false] at h1
            by_cases hxz : x < z
            · simp [hxz]
            · by_cases hzx : z < x
              · simp [hxz, hzx] at h2
              · simp only [hxz, hzx, if_false] at h2 ⊢
                exact ih ys zs h1 h2

/-- `Encode` on a writer with room for an address: no error, and the bytes
of the address are appended. -/
theorem Address.Encode_of_room (a : Address) (w : Writer)
    (hroom : ∀ k, w.room = some k → AddressLength ≤ k) :
    (a.Encode w).1 = none ∧ (a.Encode w).2.written = w.written ++ a.Bytes := by
  have hlen : a.Bytes.length = AddressLength := a.len
  obtain ⟨written, room⟩ := w
  cases room with
  | none => exact ⟨rfl, rfl⟩
  | some k =>
    have hk : a.Bytes.length ≤ k := by rw [hlen]; exact hroom k rfl
    simp [Address.Encode, Writer.Write, hk]

/-- `Encode` returns no error only on a writer with room for an address. -/
theorem Address.room_of_Encode (a : Address) (w : Writer) (h : (a.Encode w).1 = none) :
    ∀ k, w.room = some k → AddressLength ≤ k := by
  intro k hk
  have hlen : a.Bytes.length = AddressLength := a.len
  obtain ⟨written, room⟩ := w
  simp only at hk
  subst hk
  by_contra hlt
  have : ¬ a.Bytes.length ≤ k := by rw [hlen]; exact hlt
  simp [Address.Encode, Writer.Write, this] at h

/-- `Decode` on a reader that holds the bytes of `a` and then `tail`. -/
theorem Address.Decode_of_bytes (a recv : Address) (r : Reader) (tail : List Byte)
    (hr : r.bytes = a.Bytes ++ tail) :
    (recv.Decode r).1 = a ∧ (recv.Decode r).2.1 = none ∧
    (recv.Decode r).2.2.bytes = tail := by
  have hlen : a.Bytes.length = AddressLength := a.len
  have hge : AddressLength ≤ r.bytes.length := by
    rw [hr, List.length_append, hlen]; omega
  refine ⟨?_, ?_, ?_⟩
  · apply Address.ext_bytes
    rw [Address.Decode_bytes, hr, List.take_append_eq_append_take, hlen]
    have h0 : AddressLength - (a.Bytes ++ tail).length = 0 := by
      rw [List.length_append, hlen]; omega
    rw [h0, ← hlen]
    simp [Address.Bytes]
  · rw [Address.Decode_err, if_pos hge]
  · rw [Address.Decode_rest, hr, List.drop_append_eq_append_drop, ← hlen]
    simp

theorem addressSerializer_roundTrips : addressSerializer.RoundTrips := by
  intro v w h
  have hroom := Address.room_of_Encode v w h
  exact ⟨v.Bytes, (Address.Encode_of_room v w hroom).2,
    fun recv r tail hr => Address.Decode_of_bytes v recv r tail hr⟩

/-! ## Proofs: channel sync message -/

theorem perunioEncode_two (w : Writer) (f g : Writer → Option Error × Writer) :
    perunioEncode w [f, g] =
      (match f w with
       | (some e, w1) => (some e, w1)
       | (none, w1) => g w1) := by
  simp only [perunioEncode]
  rcases f w with ⟨_ | e, w1⟩
  · simp only
    rcases g w1 with ⟨_ | e2, w2⟩ <;> rfl
  · rfl

theorem perunioDecode_two {σ : Type} (r : Reader) (f g : σ → Reader → σ × Option Error × Reader)
    (s : σ) :
    perunioDecode r [f, g] s =
      (match f s r with
       | (s1, some e, r1) => (s1, some e, r1)
       | (s1, none, r1) => g s1 r1) := by
  simp only [perunioDecode]
  rcases f s r with ⟨s1, _ | e, r1⟩
  · simp only
    rcases g s1 r1 with ⟨s2, _ | e2, r2⟩ <;> rfl
  · rfl

/-! ## Proofs: wire codec -/

theorem toBytesLE_length (k : Nat) : ∀ n, (toBytesLE k n).length = k := by
  induction k with
  | zero => intro n; rfl
  | succ k ih => intro n; simp [toBytesLE, ih]

theorem ofBytesLE_toBytesLE (k : Nat) : ∀ n, ofBytesLE (toBytesLE k n) = n % 256 ^ k := by
  induction k with
  | zero => intro n; simp [toBytesLE, ofBytesLE, Nat.mod_one]
  | succ k ih =>
    intro n
    have hv : (Fin.ofNat (n % 256) : Fin 256).val = n % 256 := by
      simp [Fin.ofNat]
    simp only [toBytesLE, ofBytesLE, ih, hv]
    rw [pow_succ', Nat.mod_mul]

theorem putUint_length (order : ByteOrder) (k n : Nat) : (putUint order k n).length = k := by
  cases order <;> simp [putUint, toBytesLE_length]

theorem getUint_putUint (order : ByteOrder) (k n : Nat) (h : n < 256 ^ k) :
    getUint order (putUint order k n) = n := by
  cases order <;> simp [getUint, putUint, ofBytesLE_toBytesLE, Nat.mod_eq_of_lt h]

theorem toUnsigned_lt (k : Nat) (i : Int) : toUnsigned k i < 256 ^ k := by
  have hpos : (0 : Int) < (256 : Int) ^ k := by positivity
  have h1 := Int.emod_lt_of_pos i hpos
  have h0 := Int.emod_nonneg i (ne_of_gt hpos)
  have hc : ((256 ^ k : Nat) : Int) = (256 : Int) ^ k := by push_cast; rfl
  unfold toUnsigned
  omega

theorem toSigned_toUnsigned (k : Nat) (i : Int) (h : fitsSigned k i = true) :
    toSigned k (toUnsigned k i) = i := by
  have hpos : (0 : Int) < (256 : Int) ^ k := by positivity
  have hc : ((256 ^ k : Nat) : Int) = (256 : Int) ^ k := by push_cast; rfl
  simp only [fitsSigned, decide_eq_true_eq] at h
  unfold toSigned toUnsigned
  by_cases hi : 0 ≤ i
  · have he : i % (256 : Int) ^ k = i := Int.emod_eq_of_lt hi (by omega)
    rw [he]
    split <;> omega
  · have he : i % (256 : Int) ^ k = i + (256 : Int) ^ k := by
      rw [← Int.add_emod_self]
      exact Int.emod_eq_of_lt (by omega) (by omega)
    rw [he]
    split <;> omega

theorem encodeValue_length (order : ByteOrder) (v : Value) :
    (encodeValue order v).length = v.kind.width := by
  cases v <;> simp [encodeValue, Value.kind, Kind.width, putUint_length]

theorem decodeValue_encodeValue (order : ByteOrder) (v : Value) (h : v.inRange = true) :
    decodeValue order v.kind (encodeValue order v) = v := by
  cases v with
  | bool b => cases b <;> simp [decodeValue, encodeValue, Value.kind]
  | uint16 n =>
    simp only [Value.inRange, fitsUnsigned, decide_eq_true_eq] at h
    simp [decodeValue, encodeValue, Value.kind, getUint_putUint _ _ _ h]
  | uint32 n =>
    simp only [Value.inRange, fitsUnsigned, decide_eq_true_eq] at h
    simp [decodeValue, encodeValue, Value.kind, getUint_putUint _ _ _ h]
  | uint64 n =>
    simp only [Value.inRange, fitsUnsigned, decide_eq_true_eq] at h
    simp [decodeValue, encodeValue, Value.kind, getUint_putUint _ _ _ h]
  | int16 i =>
    simp only [decodeValue, encodeValue, Value.kind,
      getUint_putUint _ _ _ (toUnsigned_lt 2 i), toSigned_toUnsigned 2 i h]
  | int32 i =>
    simp only [decodeValue, encodeValue, Value.kind,
      getUint_putUint _ _ _ (toUnsigned_lt 4 i), toSigned_toUnsigned 4 i h]
  | int64 i =>
    simp only [decodeValue, encodeValue, Value.kind,
      getUint_putUint _ _ _ (toUnsigned_lt 8 i), toSigned_toUnsigned 8 i h]
  | time t =>
    simp only [decodeValue, encodeValue, Value.kind,
      getUint_putUint _ _ _ (toUnsigned_lt 8 t), toSigned_toUnsigned 8 t h]

/-- `io.ReadFull` into a buffer of the length of `bs`, on a reader that
holds `bs` and then `tail`: the buffer receives `bs`, no error, and the
reader keeps `tail`. -/
theorem ReadFull_of_bytes (r : Reader) (buf bs tail : List Byte)
    (hr : r.bytes = bs ++ tail) (hlen : buf.length = bs.length) :
    (ReadFull r buf).buf = bs ∧ (ReadFull r buf).err = none ∧
    (ReadFull r buf).rest.bytes = tail := by
  obtain ⟨h1, h2, h3⟩ := ReadFull_spec r buf
  have hge : buf.length ≤ r.bytes.length := by
    rw [hr, List.length_append, hlen]; omega
  refine ⟨?_, ?_, ?_⟩
  · rw [h1, hr, hlen, List.take_append_eq_append_take]
    simp [writeAt, ← hlen]
  · rw [h3, if_pos hge]
  · rw [h2, hr, hlen, List.drop_append_eq_append_drop]
    simp

theorem wireEncode_of_room (order : ByteOrder) (values : List Value) :
    ∀ w : Writer, (∀ k, w.room = some k → totalWidth values ≤ k) →
      (wireEncode order w values).1 = none ∧
      (wireEncode order w values).2.written
        = w.written ++ (values.map (encodeValue order)).flatten := by
  induction values with
  | nil => intro w _; simp [wireEncode]
  | cons v vs ih =>
    intro w hroom
    have hlen := encodeValue_length order v
    have htot : totalWidth (v :: vs) = v.kind.width + totalWidth vs := by
      simp [totalWidth]
    obtain ⟨written, room⟩ := w
    cases room with
    | none =>
      have h := ih ⟨written ++ encodeValue order v, none⟩ (by intro k hk; simp at hk)
      simp only [wireEncode, Writer.Write]
      simp only [h, List.map_cons, List.flatten_cons, List.append_assoc, and_self]
    | some k =>
      have hk := hroom k rfl
      have hfit : (encodeValue order v).length ≤ k := by rw [hlen]; omega
      have h := ih ⟨written ++ encodeValue order v, some (k - (encodeValue order v).length)⟩
        (by
          intro k1 hk1
          simp only [Option.some.injEq] at hk1
          omega)
      simp only [wireEncode, Writer.Write, hfit, if_true]
      simp only [h, List.map_cons, List.flatten_cons, List.append_assoc, and_self]

theorem wireDecode_of_bytes (order : ByteOrder) (values : List Value) :
    ∀ (r : Reader) (tail : List Byte), (∀ v ∈ values, v.inRange = true) →
      r.bytes = (values.map (encodeValue order)).flatten ++ tail →
      (wireDecode order r (values.map Value.kind)).1 = values ∧
      (wireDecode order r (values.map Value.kind)).2.1 = none ∧
      (wireDecode order r (values.map Value.kind)).2.2.bytes = tail := by
  induction values with
  | nil =>
    intro r tail _ hr
    simpa [wireDecode] using hr
  | cons v vs ih =>
    intro r tail hin hr
    simp only [List.map_cons, List.flatten_cons, List.append_assoc] at hr
    obtain ⟨h1, h2, h3⟩ := ReadFull_of_bytes r (List.replicate v.kind.width (0 : Byte))
      (encodeValue order v) _ hr (by simp [encodeValue_length])
    obtain ⟨i1, i2, i3⟩ := ih (ReadFull r (List.replicate v.kind.width (0 : Byte))).rest tail
      (fun x hx => hin x (List.mem_cons_of_mem _ hx)) h3
    have hv := decodeValue_encodeValue order v (hin v (List.mem_cons_self _ _))
    simp only [List.map_cons, wireDecode, h2, h1, hv, i1, i2, i3, and_self]

/-! ## Proofs: test dialer -/

theorem Dialer.Close_closed {A L I : Type} (d : Dialer A L I) : d.Close.2.closed = true := by
  unfold Dialer.Close
  cases h : d.closed <;> simp [h]

theorem Dialer.call_closed {A L I : Type} (env : DialEnv A L I) (d : Dialer A L I)
    (w : World A L) (c : DialerCall A) (h : d.closed = true) :
    (d.call env w c).1.closed = true := by
  cases c with
  | Dial ctxDone address => exact h
  | Close => exact Dialer.Close_closed d

theorem Dialer.calls_closed {A L I : Type} (env : DialEnv A L I) (cs : List (DialerCall A)) :
    ∀ (d : Dialer A L I) (w : World A L), d.closed = true →
      (Dialer.calls env cs d w).1.closed = true := by
  induction cs with
  | nil => intro d w h; exact h
  | cons c cs ih =>
    intro d w h
    exact ih _ _ (Dialer.call_closed env d w c h)

theorem Dialer.calls_dialCalls {A L I : Type} (env : DialEnv A L I) (dials : List (Bool × A)) :
    ∀ (d : Dialer A L I) (w : World A L), (Dialer.calls env (dialCalls dials) d w).1 = d := by
  induction dials with
  | nil => intro d w; rfl
  | cons p ps ih =>
    intro d w
    exact ih d _

/-! ## Properties of `Address` -/

/-- C1: for every address `a`, `Encode` on a writer that has room for 20
bytes returns no error and appends exactly the 20 bytes `a.Bytes()` to what
was written; and `Decode`, with any receiver, on any reader that holds those
bytes (in whatever chunks, and whatever follows them) returns no error,
leaves the receiver equal to `a` and takes exactly those bytes from the
reader. -/
theorem Address.Encode_then_Decode (a recv : Address) (w : Writer)
    (hroom : ∀ k, w.room = some k → AddressLength ≤ k) :
    (a.Encode w).1 = none ∧
    (a.Encode w).2.written = w.written ++ a.Bytes ∧
    a.Bytes.length = 20 ∧
    ∀ (r : Reader) (tail : List Byte), r.bytes = a.Bytes ++ tail →
      (recv.Decode r).1 = a ∧ (recv.Decode r).2.1 = none ∧
      (recv.Decode r).2.2.bytes = tail :=
  ⟨(Address.Encode_of_room a w hroom).1, (Address.Encode_of_room a w hroom).2, a.len,
    fun r tail hr => Address.Decode_of_bytes a recv r tail hr⟩

/-- Witness for C1: the sample address of the tests written to an empty
buffer and read back into the zero address. -/
theorem Address.Encode_then_Decode_witness :
    (∀ k, emptyBuffer.room = some k → AddressLength ≤ k) ∧
    (sampleAddress.Encode emptyBuffer).2.written = sampleAddress.Bytes ∧
    (zeroAddress.Decode (bytesNewReader sampleAddress.Bytes)).1 = sampleAddress :=
  ⟨by decide,
   (Address.Encode_then_Decode sampleAddress zeroAddress emptyBuffer (by decide)).2.1,
   ((Address.Encode_then_Decode sampleAddress zeroAddress emptyBuffer (by decide)).2.2.2
      (bytesNewReader sampleAddress.Bytes) [] (by decide)).1⟩

/-- C2: `Decode` is a total function (none of its steps can panic: the
buffer has the constant length 20 and `SetBytes` stays within it), and for
every reader: if the reader supplies fewer than 20 bytes before end of input
(also none at all) the error is not `nil`; otherwise the error is `nil` and
the bytes of the address are the first 20 bytes of the input. -/
theorem Address.Decode_error_iff_short (a : Address) (r : Reader) :
    if r.bytes.length < AddressLength then (a.Decode r).2.1.isSome = true
    else (a.Decode r).2.1 = none ∧ (a.Decode r).1.Bytes = r.bytes.take AddressLength := by
  split
  · next h =>
    rw [Address.Decode_err, if_neg (by omega)]
    split <;> rfl
  · next h =>
    have hge : AddressLength ≤ r.bytes.length := by omega
    refine ⟨by rw [Address.Decode_err, if_pos hge], ?_⟩
    have h0 : AddressLength - r.bytes.length = 0 := by omega
    simp [Address.Bytes, Address.Decode_bytes, h0]

/-- C3: `a.Equals(b)` is true if and only if `a.Cmp(b) == 0`. -/
theorem Address.Equals_iff_Cmp_eq_zero (a b : Address) :
    a.Equals b = true ↔ a.Cmp b = 0 := by
  simp [Address.Equals, Address.Cmp, bytesEqual, bytesCompare_eq_zero_iff]

/-- C4: `Cmp` is the three-way comparator of the lexicographic order on
addresses: its result is -1, 0 or +1; it is 0 exactly when `a = b`, -1
exactly when `a` is before `b` in the lexicographic order of the bytes, +1
exactly when `b` is before `a`; `a.Cmp(b) = -b.Cmp(a)`; and `a.Cmp(b) ≤ 0`
with `b.Cmp(c) ≤ 0` gives `a.Cmp(c) ≤ 0`. -/
theorem Address.Cmp_total_order (a b c : Address) :
    (a.Cmp b = -1 ∨ a.Cmp b = 0 ∨ a.Cmp b = 1) ∧
    (a.Cmp b = 0 ↔ a = b) ∧
    (a.Cmp b = -1 ↔ List.Lex (· < ·) a.Bytes b.Bytes) ∧
    (a.Cmp b = 1 ↔ List.Lex (· < ·) b.Bytes a.Bytes) ∧
    a.Cmp b = - b.Cmp a ∧
    (a.Cmp b ≤ 0 → b.Cmp c ≤ 0 → a.Cmp c ≤ 0) := by
  refine ⟨bytesCompare_range _ _, ?_, bytesCompare_neg_one_iff _ _, ?_,
    bytesCompare_antisymm _ _, bytesCompare_trans _ _ _⟩
  · constructor
    · intro h
      exact Address.ext_bytes ((bytesCompare_eq_zero_iff _ _).mp h)
    · intro h
      subst h
      exact bytesCompare_self _
  · rw [← bytesCompare_neg_one_iff]
    simp only [Address.Cmp]
    rw [bytesCompare_antisymm a.Bytes b.Bytes]
    constructor <;> intro h <;> omega

/-- Witness for C4: the zero address is before the sample address, which is
before itself or equal. -/
theorem Address.Cmp_total_order_witness :
    zeroAddress.Cmp sampleAddress ≤ 0 ∧ sampleAddress.Cmp sampleAddress ≤ 0 ∧
    zeroAddress.Cmp sampleAddress ≤ 0 :=
  ⟨by decide, by decide,
   (Address.Cmp_total_order zeroAddress sampleAddress sampleAddress).2.2.2.2.2
     (by decide) (by decide)⟩

/-! ## Properties of the channel sync message -/

/-- C5: `m.Encode` writes the encoding of `m.Phase` and then the encoding of
`m.CurrentTX`, and `Decode` reads them in that order; an error of either
field's `Encode` or `Decode` is the error returned (and ends the call). If
the serializers of `Phase` and `Transaction` round-trip, then whenever
`m.Encode` succeeds, `Decode` into any message `fresh`, on any reader that
holds the bytes written (whatever follows them), succeeds, yields `m` and
takes exactly those bytes. -/
theorem msgChannelSync.channelSync_roundtrip {P T : Type}
    (sp : Serializer P) (st : Serializer T)
    (hsp : sp.RoundTrips) (hst : st.RoundTrips)
    (m fresh : msgChannelSync P T) (w : Writer) (r0 : Reader) :
    (m.Encode sp st w =
      (match sp.Encode m.Phase w with
       | (some e, w1) => (some e, w1)
       | (none, w1) => st.Encode m.CurrentTX w1)) ∧
    (fresh.Decode sp st r0 =
      (match sp.Decode fresh.Phase r0 with
       | (p, some e, r1) => (⟨p, fresh.CurrentTX⟩, some e, r1)
       | (p, none, r1) =>
         (⟨p, (st.Decode fresh.CurrentTX r1).1⟩, (st.Decode fresh.CurrentTX r1).2.1,
           (st.Decode fresh.CurrentTX r1).2.2))) ∧
    ((m.Encode sp st w).1 = none →
      ∃ bs : List Byte, (m.Encode sp st w).2.written = w.written ++ bs ∧
        ∀ (r : Reader) (tail : List Byte), r.bytes = bs ++ tail →
          (fresh.Decode sp st r).1 = m ∧ (fresh.Decode sp st r).2.1 = none ∧
          (fresh.Decode sp st r).2.2.bytes = tail) := by
  have hdec : ∀ r : Reader, fresh.Decode sp st r =
      (match sp.Decode fresh.Phase r with
       | (p, some e, r1) => (⟨p, fresh.CurrentTX⟩, some e, r1)
       | (p, none, r1) =>
         (⟨p, (st.Decode fresh.CurrentTX r1).1⟩, (st.Decode fresh.CurrentTX r1).2.1,
           (st.Decode fresh.CurrentTX r1).2.2)) := by
    intro r
    simp only [msgChannelSync.Decode, perunioDecode_two, msgChannelSync.intoPhase,
      msgChannelSync.intoCurrentTX]
    rcases sp.Decode fresh.Phase r with ⟨p, _ | e, r1⟩ <;> rfl
  have henc : m.Encode sp st w =
      (match sp.Encode m.Phase w with
       | (some e, w1) => (some e, w1)
       | (none, w1) => st.Encode m.CurrentTX w1) := by
    simp only [msgChannelSync.Encode, perunioEncode_two]
  refine ⟨henc, hdec r0, ?_⟩
  intro hok
  rw [henc] at hok ⊢
  have h1 := hsp m.Phase w
  rcases hp : sp.Encode m.Phase w with ⟨_ | e, w1⟩
  · simp only [hp] at hok h1 ⊢
    obtain ⟨bs1, hw1, hd1⟩ := h1 trivial
    obtain ⟨bs2, hw2, hd2⟩ := hst m.CurrentTX w1 hok
    refine ⟨bs1 ++ bs2, by rw [hw2, hw1, List.append_assoc], ?_⟩
    intro r tail hr
    rw [List.append_assoc] at hr
    obtain ⟨a1, a2, a3⟩ := hd1 fresh.Phase r (bs2 ++ tail) hr
    rw [hdec r]
    rcases hq : sp.Decode fresh.Phase r with ⟨p, _ | e, r1⟩
    · simp only [hq] at a1 a3 ⊢
      obtain ⟨b1, b2, b3⟩ := hd2 fresh.CurrentTX r1 tail a3
      refine ⟨?_, b2, b3⟩
      rw [a1, b1]
    · simp [hq] at a2
  · simp [hp] at hok

/-- Witness for C5: both fields serialized as addresses; the message holding
the sample address and the zero address is written to an empty buffer. -/
theorem msgChannelSync.channelSync_roundtrip_witness :
    addressSerializer.RoundTrips ∧
    (msgChannelSync.Encode addressSerializer addressSerializer
        ⟨sampleAddress, zeroAddress⟩ emptyBuffer =
      (match addressSerializer.Encode sampleAddress emptyBuffer with
       | (some e, w1) => (some e, w1)
       | (none, w1) => addressSerializer.Encode zeroAddress w1)) :=
  ⟨addressSerializer_roundTrips,
   (msgChannelSync.channelSync_roundtrip addressSerializer addressSerializer
      addressSerializer_roundTrips addressSerializer_roundTrips
      ⟨sampleAddress, zeroAddress⟩ ⟨zeroAddress, zeroAddress⟩ emptyBuffer
      (bytesNewReader [])).1⟩

/-- C6: on a registry that has no decoder under `wire.ChannelSync` yet,
`init` registers one, and what the registry then holds under that tag is a
decoder that, for every input, returns a `msgChannelSync` together with the
error and the reader that `msgChannelSync.Decode` on a zero message gives
for that input; the `Type()` of the returned message is `wire.ChannelSync`
and its `ID()` is the ID of its `CurrentTX`. -/
theorem init_registers_channelSync_decoder {P T I : Type} (ChannelSync : WireType)
    (sp : Serializer P) (st : Serializer T) (zero : msgChannelSync P T) (txID : T → I)
    (reg : Registry P T) (hfree : reg.lookup ChannelSync = none) :
    ∃ (reg1 : Registry P T) (decoder : MsgDecoder P T),
      init ChannelSync sp st zero reg = some reg1 ∧
      reg1.lookup ChannelSync = some decoder ∧
      ∀ r : Reader, ∃ m : msgChannelSync P T,
        (decoder r).1 = Msg.channelSync m ∧
        (m, (decoder r).2.1, (decoder r).2.2) = zero.Decode sp st r ∧
        (decoder r).1.Type ChannelSync = ChannelSync ∧
        m.Type ChannelSync = ChannelSync ∧
        m.ID txID = txID m.CurrentTX := by
  refine ⟨⟨(ChannelSync, channelSyncDecoder sp st zero) :: reg.entries⟩,
    channelSyncDecoder sp st zero, ?_, ?_, ?_⟩
  · simp [init, RegisterDecoder, hfree]
  · simp [Registry.lookup]
  · intro r
    exact ⟨(zero.Decode sp st r).1, rfl, rfl, rfl, rfl, rfl⟩

/-- Witness for C6: `init` on the empty registry, with tag 7 and addresses
for both fields. -/
theorem init_registers_channelSync_decoder_witness :
    (Registry.mk ([] : List (WireType × MsgDecoder Address Address))).lookup 7 = none ∧
    ∃ (reg1 : Registry Address Address) (decoder : MsgDecoder Address Address),
      init 7 addressSerializer addressSerializer ⟨zeroAddress, zeroAddress⟩ ⟨[]⟩ = some reg1 ∧
      reg1.lookup 7 = some decoder ∧
      ∀ r : Reader, ∃ m : msgChannelSync Address Address,
        (decoder r).1 = Msg.channelSync m ∧
        (m, (decoder r).2.1, (decoder r).2.2)
          = msgChannelSync.Decode addressSerializer addressSerializer
              ⟨zeroAddress, zeroAddress⟩ r ∧
        (decoder r).1.Type 7 = 7 ∧
        m.Type 7 = 7 ∧
        m.ID Address.Bytes = Address.Bytes m.CurrentTX :=
  ⟨rfl, init_registers_channelSync_decoder 7 addressSerializer addressSerializer
    ⟨zeroAddress, zeroAddress⟩ Address.Bytes ⟨[]⟩ rfl⟩

/-! ## Properties of the test dialer -/

/-- C7: for every dialed address `A` for which the hub has a listener, with
`conn` the connection that `Dial` creates and the address exchange run on
it: if the exchange fails, or yields an address `B` with `B.Equals(A)`
false, `Dial` returns a nil connection and a non-nil error; and `Dial`
returns a connection with a nil error only if that connection is `conn` and
the exchange yielded an address `B` with `B.Equals(A)` true. This holds
whether or not the dialer is closed or the context done. -/
theorem Dialer.Dial_fails_unless_address_matches {A L I : Type} (env : DialEnv A L I)
    (d : Dialer A L I) (ctxDone : Bool) (address : A) (w : World A L) (l : L)
    (hl : d.hub address = some l) :
    (((∃ e, (env.ExchangeAddrs d.identity (d.beforeExchange address l w).1
              (d.beforeExchange address l w).2).1 = Except.error e) ∨
      (∃ B, (env.ExchangeAddrs d.identity (d.beforeExchange address l w).1
              (d.beforeExchange address l w).2).1 = Except.ok B ∧
            env.Equals B address = false)) →
      (d.Dial env ctxDone address w).1.1 = none ∧
      (d.Dial env ctxDone address w).1.2.isSome = true) ∧
    (∀ c : Conn, (d.Dial env ctxDone address w).1 = (some c, none) →
      c = (d.beforeExchange address l w).1 ∧
      ∃ B, (env.ExchangeAddrs d.identity (d.beforeExchange address l w).1
              (d.beforeExchange address l w).2).1 = Except.ok B ∧
           env.Equals B address = true) := by
  simp only [Dialer.Dial, Dialer.beforeExchange, Dialer.find, hl]
  cases hc : d.closed
  · cases ctxDone
    · simp only [Bool.false_eq_true, if_false]
      rcases hx : env.ExchangeAddrs d.identity
          (netPipe { w with lookups := w.lookups ++ [address] }).1
          (Put l (netPipe { w with lookups := w.lookups ++ [address] }).2.1
            (netPipe { w with lookups := w.lookups ++ [address] }).2.2) with ⟨_ | B, w4⟩
      · simp
      · cases hB : env.Equals B address <;> simp [hB]
    · simp
  · simp

/-- Witness for C7: the open dialer dials address 1 and the peer claims
address 2. -/
theorem Dialer.Dial_fails_unless_address_matches_witness :
    openDialer.hub 1 = some () ∧
    (openDialer.Dial claimsTwo false 1 freshWorld).1.1 = none ∧
    (openDialer.Dial claimsTwo false 1 freshWorld).1.2.isSome = true :=
  ⟨rfl, (Dialer.Dial_fails_unless_address_matches claimsTwo openDialer false 1 freshWorld ()
    rfl).1 (Or.inr ⟨2, rfl, rfl⟩)⟩

/-- C8, as the claim states it, fails: the open dialer dials address 1, the
exchange on the new connection yields address 2 and leaves the connection
open; `Dial` returns the error "invalid peer address" and the connection it
created is not among the closed ones. -/
theorem Dialer.Dial_mismatch_conn_not_closed :
    (claimsTwo.ExchangeAddrs openDialer.identity
        (openDialer.beforeExchange 1 () freshWorld).1
        (openDialer.beforeExchange 1 () freshWorld).2).1 = Except.ok 2 ∧
    claimsTwo.Equals 2 1 = false ∧
    (openDialer.Dial claimsTwo false 1 freshWorld).1
      = (none, some Error.invalidPeerAddress) ∧
    (openDialer.Dial claimsTwo false 1 freshWorld).2.pipes = 1 ∧
    ¬ ((openDialer.beforeExchange 1 () freshWorld).1
        ∈ (openDialer.Dial claimsTwo false 1 freshWorld).2.closedConns) := by
  refine ⟨rfl, rfl, rfl, rfl, ?_⟩
  simp [Dialer.Dial, Dialer.beforeExchange, Dialer.find, openDialer, claimsTwo, freshWorld,
    netPipe, Put]

/-- C8, amended: when an open dialer with a live context finds a listener
and the address exchange fails or yields an address that does not equal the
dialed one, `Dial` returns a nil connection and a non-nil error and does
nothing after the exchange: the state on return is the state in which the
exchange left it. So the connection that `Dial` created is closed on return
exactly if the exchange itself closed it; `Dial` does not close it. -/
theorem Dialer.Dial_failure_leaves_conn_as_exchanged {A L I : Type} (env : DialEnv A L I)
    (d : Dialer A L I) (address : A) (w : World A L) (l : L)
    (hopen : d.closed = false) (hl : d.hub address = some l)
    (hfail : (∃ e, (env.ExchangeAddrs d.identity (d.beforeExchange address l w).1
                (d.beforeExchange address l w).2).1 = Except.error e) ∨
      (∃ B, (env.ExchangeAddrs d.identity (d.beforeExchange address l w).1
                (d.beforeExchange address l w).2).1 = Except.ok B ∧
            env.Equals B address = false)) :
    (d.Dial env false address w).1.1 = none ∧
    (d.Dial env false address w).1.2.isSome = true ∧
    (d.Dial env false address w).2
      = (env.ExchangeAddrs d.identity (d.beforeExchange address l w).1
          (d.beforeExchange address l w).2).2 ∧
    ((d.beforeExchange address l w).1 ∈ (d.Dial env false address w).2.closedConns ↔
      (d.beforeExchange address l w).1
        ∈ (env.ExchangeAddrs d.identity (d.beforeExchange address l w).1
            (d.beforeExchange address l w).2).2.closedConns) := by
  simp only [Dialer.Dial, Dialer.beforeExchange, Dialer.find, hl, hopen] at hfail ⊢
  simp only [Bool.false_eq_true, if_false]
  rcases hx : env.ExchangeAddrs d.identity
      (netPipe { w with lookups := w.lookups ++ [address] }).1
      (Put l (netPipe { w with lookups := w.lookups ++ [address] }).2.1
        (netPipe { w with lookups := w.lookups ++ [address] }).2.2) with ⟨_ | B, w4⟩
  · simp
  · rw [hx] at hfail
    cases hB : env.Equals B address
    · simp [hB]
    · rcases hfail with ⟨e, he⟩ | ⟨B1, hB1, hne⟩
      · simp at he
      · simp only [Except.ok.injEq] at hB1
        subst hB1
        rw [hB] at hne
        simp at hne

/-- Witness for amended C8: the open dialer dials address 1 and the peer
claims address 2. -/
theorem Dialer.Dial_failure_leaves_conn_as_exchanged_witness :
    openDialer.closed = false ∧ openDialer.hub 1 = some () ∧
    (openDialer.Dial claimsTwo false 1 freshWorld).2
      = (claimsTwo.ExchangeAddrs openDialer.identity
          (openDialer.beforeExchange 1 () freshWorld).1
          (openDialer.beforeExchange 1 () freshWorld).2).2 :=
  ⟨rfl, rfl, (Dialer.Dial_failure_leaves_conn_as_exchanged claimsTwo openDialer 1 freshWorld ()
    rfl rfl (Or.inr ⟨2, rfl, rfl⟩)).2.2.1⟩

/-- C9: for every open dialer and every address, `Dial` with a context that
is already done returns a nil connection and the error "manually aborted",
and leaves the state outside the dialer as it was: no address is looked up
in the hub, no pipe is created and no connection is delivered to a
listener. -/
theorem Dialer.Dial_cancelled {A L I : Type} (env : DialEnv A L I) (d : Dialer A L I)
    (address : A) (w : World A L) (hopen : d.closed = false) :
    (d.Dial env true address w).1 = (none, some Error.manuallyAborted) ∧
    (d.Dial env true address w).2 = w ∧
    (d.Dial env true address w).2.lookups = w.lookups ∧
    (d.Dial env true address w).2.pipes = w.pipes ∧
    (d.Dial env true address w).2.delivered = w.delivered := by
  simp [Dialer.Dial, hopen]

/-- Witness for C9: the open dialer with a cancelled context. -/
theorem Dialer.Dial_cancelled_witness :
    openDialer.closed = false ∧
    (openDialer.Dial claimsTwo true 1 freshWorld).1 = (none, some Error.manuallyAborted) :=
  ⟨rfl, (Dialer.Dial_cancelled claimsTwo openDialer 1 freshWorld rfl).1⟩

/-! ## Properties of the wire codec -/

/-- C10: for every sequence of values of the primitive types (bool, uint16,
uint32, uint64, int16, int32, int64, time in nanoseconds), each a value of
its type, in either byte order: `Encode` on a writer with room for the
layouts succeeds and appends some bytes `bs`; and `Decode` into destinations
of the same types, on any reader that holds `bs` (in whatever chunks, and
whatever follows), succeeds, reconstructs the values in the same order and
takes exactly `bs` from the reader. -/
theorem wire_encode_decode_roundtrip (order : ByteOrder) (values : List Value) (w : Writer)
    (hrange : ∀ v ∈ values, v.inRange = true)
    (hroom : ∀ k, w.room = some k → totalWidth values ≤ k) :
    (wireEncode order w values).1 = none ∧
    ∃ bs : List Byte, (wireEncode order w values).2.written = w.written ++ bs ∧
      ∀ (r : Reader) (tail : List Byte), r.bytes = bs ++ tail →
        (wireDecode order r (values.map Value.kind)).1 = values ∧
        (wireDecode order r (values.map Value.kind)).2.1 = none ∧
        (wireDecode order r (values.map Value.kind)).2.2.bytes = tail :=
  ⟨(wireEncode_of_room order values w hroom).1,
   (values.map (encodeValue order)).flatten,
   (wireEncode_of_room order values w hroom).2,
   fun r tail hr => wireDecode_of_bytes order values r tail hrange hr⟩

/-- Witness for C10: the values of `TestEncodeDecode` written to an empty
buffer in little-endian order. -/
theorem wire_encode_decode_roundtrip_witness :
    (∀ v ∈ testValues, v.inRange = true) ∧
    (∀ k, emptyBuffer.room = some k → totalWidth testValues ≤ k) ∧
    (wireEncode ByteOrder.littleEndian emptyBuffer testValues).1 = none :=
  ⟨by decide, by decide,
   (wire_encode_decode_roundtrip ByteOrder.littleEndian testValues emptyBuffer
      (by decide) (by decide)).1⟩

/-! ## The closed flag of the test dialer -/

/-- C12: the flag `closed` of the test dialer is a one-way latch. On a fresh
dialer, also after any number of `Dial` calls (which leave the dialer as it
is), the first `Close` returns nil. After that `Close`, whatever calls of
`Dial` and `Close` follow: the flag is still set (no call reopens the
dialer), a further `Close` returns the error "dialer was already closed",
and `Dial`, for any context and any address, returns a nil connection and
the error "dialer closed" and leaves the state outside the dialer as it
was, so no connection is delivered to a listener. -/
theorem Dialer.closed_is_one_way_latch {A L I : Type} (env : DialEnv A L I)
    (d : Dialer A L I) (w w1 : World A L) (hfresh : d.closed = false)
    (dials : List (Bool × A)) (later : List (DialerCall A))
    (ctxDone : Bool) (address : A) :
    (Dialer.calls env (dialCalls dials) d w).1 = d ∧
    d.Close.1 = none ∧
    (Dialer.calls env later d.Close.2 w1).1.closed = true ∧
    (Dialer.calls env later d.Close.2 w1).1.Close.1 = some Error.dialerAlreadyClosed ∧
    ((Dialer.calls env later d.Close.2 w1).1.Dial env ctxDone address
        (Dialer.calls env later d.Close.2 w1).2).1 = (none, some Error.dialerClosed) ∧
    ((Dialer.calls env later d.Close.2 w1).1.Dial env ctxDone address
        (Dialer.calls env later d.Close.2 w1).2).2 = (Dialer.calls env later d.Close.2 w1).2 ∧
    ((Dialer.calls env later d.Close.2 w1).1.Dial env ctxDone address
        (Dialer.calls env later d.Close.2 w1).2).2.delivered
      = (Dialer.calls env later d.Close.2 w1).2.delivered := by
  have hc : (Dialer.calls env later d.Close.2 w1).1.closed = true :=
    Dialer.calls_closed env later _ _ (Dialer.Close_closed d)
  have hfirst : d.Close.1 = none := by simp [Dialer.Close, hfresh]
  refine ⟨Dialer.calls_dialCalls env dials d w, hfirst, hc, ?_, ?_, ?_, ?_⟩
  all_goals
    generalize Dialer.calls env later d.Close.2 w1 = s at hc ⊢
  · simp [Dialer.Close, hc]
  · simp [Dialer.Dial, hc]
  · simp [Dialer.Dial, hc]
  · simp [Dialer.Dial, hc]

/-- Witness for C12: the open dialer is dialed once, closed, and then dialed
and closed again. -/
theorem Dialer.closed_is_one_way_latch_witness :
    openDialer.closed = false ∧
    openDialer.Close.1 = none ∧
    (Dialer.calls claimsTwo [DialerCall.Dial false 2, DialerCall.Close]
        openDialer.Close.2 freshWorld).1.Close.1 = some Error.dialerAlreadyClosed :=
  ⟨rfl,
   (Dialer.closed_is_one_way_latch claimsTwo openDialer freshWorld freshWorld rfl
      [(false, 2)] [DialerCall.Dial false 2, DialerCall.Close] false 2).2.1,
   (Dialer.closed_is_one_way_latch claimsTwo openDialer freshWorld freshWorld rfl
      [(false, 2)] [DialerCall.Dial false 2, DialerCall.Close] false 2).2.2.2.1⟩

/-! ## `Decode` on a short input -/

/-- C13, as the claim states it, fails: the zero address decoding from a
reader at end of input (k = 0) gets the error, and afterwards the receiver
holds the all-zero address, which is the value it held before. -/
theorem Address.Decode_short_keeps_zero_receiver :
    (bytesNewReader []).bytes.length < AddressLength ∧
    (zeroAddress.Decode (bytesNewReader [])).2.1
      = some (Error.decodingAddress Error.EOF) ∧
    (zeroAddress.Decode (bytesNewReader [])).1 = zeroAddress := by
  decide

/-- C13, amended: `Decode` is not atomic on failure. For every receiver and
every reader that supplies k < 20 bytes before end of input, `Decode`
returns an error and the receiver afterwards holds those k bytes followed by
20-k zero bytes (for k = 0 the all-zero address), whatever it held before;
so it still holds its previous value only if that value was already those k
bytes followed by zero bytes. -/
theorem Address.Decode_short_overwrites (a : Address) (r : Reader)
    (hshort : r.bytes.length < AddressLength) :
    (a.Decode r).2.1.isSome = true ∧
    (a.Decode r).1.Bytes
      = r.bytes ++ List.replicate (AddressLength - r.bytes.length) (0 : Byte) ∧
    ((a.Decode r).1 = a ↔
      a.Bytes = r.bytes ++ List.replicate (AddressLength - r.bytes.length) (0 : Byte)) := by
  have hb : (a.Decode r).1.bytes
      = r.bytes ++ List.replicate (AddressLength - r.bytes.length) (0 : Byte) := by
    rw [Address.Decode_bytes, List.take_of_length_le (Nat.le_of_lt hshort)]
  refine ⟨?_, hb, ?_⟩
  · rw [Address.Decode_err, if_neg (by omega)]
    split <;> rfl
  · constructor
    · intro h
      have := congrArg Address.bytes h
      rw [hb] at this
      exact this.symm
    · intro h
      apply Address.ext_bytes
      rw [hb]
      exact h.symm

/-- Witness for amended C13: the sample address decodes from the six bytes
of `invalidAddr`. -/
theorem Address.Decode_short_overwrites_witness :
    invalidAddrReader.bytes.length < AddressLength ∧
    (sampleAddress.Decode invalidAddrReader).2.1.isSome = true ∧
    (sampleAddress.Decode invalidAddrReader).1.Bytes
      = invalidAddrReader.bytes
          ++ List.replicate (AddressLength - invalidAddrReader.bytes.length) (0 : Byte) :=
  ⟨by decide,
   (Address.Decode_short_overwrites sampleAddress invalidAddrReader (by decide)).1,
   (Address.Decode_short_overwrites sampleAddress invalidAddrReader (by decide)).2.1⟩

end Perun
